import Mathlib

/-!
Verification of the audio-transcriber pipeline (src/audio_transcriber.py).

The Python program submits audio to a remote transcription service, polls the
job to completion, assembles speaker-tagged segments from the returned JSON,
and renders them either as flat text or as a paginated PDF.  This file gives a
shallow embedding of the pure parts of that program and proves properties of
them:

* `format_segments` — the segment assembler (Python `format_segments`).
  JSON dictionaries are embedded as structures with `Option` fields (a `none`
  field models an absent key); the Python `dict.get(key, default)` becomes
  `Option.getD`, and an unguarded `d[key]` access on an absent key becomes an
  `Except.error` (Python `KeyError`).  Python's chained comparison
  `a <= b < c` evaluates `c` only when `a <= b` holds; the embedding
  (`turnTest`) mirrors that short-circuit, since it decides whether a missing
  `"end"` key is ever touched.  Times are embedded as exact numbers: raw
  millisecond values as `Int`, derived second values as `ℚ` (the Python
  floating division by 1000.0 is idealized as exact rational division).
* `poll_transcription` — the polling loop, run against an explicit finite
  script of network responses (a `transient` entry models a timeout or an
  HTTP error status on which `raise_for_status` throws).
* `wrap_text`, `paginate` — the greedy word-wrap and the PDF page loop.  The
  external `stringWidth(text, font, size)` measurement is embedded as a
  per-character width function `cw : Char → ℚ` summed over the string, which
  is how the metric of a simple font behaves; font and size are folded into
  `cw`.
* flat-text rendering (`flatLine`, `flatText`) with Python's `str.split()`,
  `str.join` and `splitlines()` semantics rebuilt structurally so that they
  evaluate by kernel reduction.
-/

/-! ## Data model: the JSON shapes consumed by the assembler -/

/-- One element of the `"words"` array.  `start` is the raw millisecond value
of the `"start"` key, `none` when the key is absent (the code reads it with
`w.get("start", -1)`).  The `"text"` key is read unguarded (`w["text"]`); the
claims under study never exercise a word without text, so it is a plain
field. -/
structure Word where
  text : String
  start : Option Int
deriving DecidableEq

/-- One element of `speaker_labels["segments"]` (a diarization turn).  All
three keys may be absent: `speaker_label` is read with `.get` (default
`None`), `start`/`stop` are read both with `.get(…, 0)` (for the emitted
timestamps) and unguarded (`seg["start"]`, `seg["end"]`) inside the word
filter.  `stop` embeds the JSON key `"end"` (a Lean keyword). -/
structure Turn where
  speaker_label : Option String
  start : Option Int
  stop : Option Int
deriving DecidableEq

/-- The value found at the `"speaker_labels"` key, when present and not
`None`.  `dict segments hasOtherKeys` is a JSON object: `segments` is the
`"segments"` key (absent when `none`), `hasOtherKeys` records whether any
other key is present — together they determine Python truthiness of the
object (a dict is falsy iff it is empty).  `notDict` is any non-dict value;
`isinstance(labels, dict)` fails on it whatever its truthiness, so the
truthiness is irrelevant and not recorded. -/
inductive SpeakerLabels where
  | notDict : SpeakerLabels
  | dict : Option (List Turn) → Bool → SpeakerLabels
deriving DecidableEq

/-- The JSON object returned by the completed transcription job, restricted
to the keys `format_segments` reads.  A `none` field models an absent key (or
JSON `null`, which `dict.get` also surfaces as `None`). -/
structure RawResult where
  speaker_labels : Option SpeakerLabels
  words : Option (List Word)
  text : Option String
  audio_duration : Option Int
deriving DecidableEq

/-- An assembled speaker segment (the dicts built by `format_segments`).
`start`/`stop` are in seconds; `stop` embeds the `"end"` key. -/
structure Segment where
  speaker : Option String
  start : ℚ
  stop : ℚ
  text : String
deriving DecidableEq

/-! ## Python string primitives, rebuilt structurally -/

/-- Python `sep.join(xs)`. -/
def pyJoin (sep : String) : List String → String
  | [] => ""
  | [x] => x
  | x :: y :: xs => x ++ sep ++ pyJoin sep (y :: xs)

/-- Helper for `pySplitWs`: walk the characters, accumulating the current
chunk in reverse; whitespace closes a chunk, empty chunks are dropped —
exactly Python `str.split()` with no argument. -/
def pySplitWsAux : List Char → List Char → List String
  | [], acc => if acc.isEmpty then [] else [String.mk acc.reverse]
  | c :: cs, acc =>
      if c.isWhitespace then
        if acc.isEmpty then pySplitWsAux cs []
        else String.mk acc.reverse :: pySplitWsAux cs []
      else pySplitWsAux cs (c :: acc)

/-- Python `text.split()` — split on whitespace runs, dropping empties. -/
def pySplitWs (s : String) : List String := pySplitWsAux s.data []

/-- Helper for `splitLines`: each `'\n'` terminates a line; a final chunk is
a line only when nonempty — Python `str.splitlines()` (for input whose only
line breaks are `'\n'`). -/
def splitLinesAux : List Char → List Char → List String
  | [], acc => if acc.isEmpty then [] else [String.mk acc.reverse]
  | c :: cs, acc =>
      if c = '\n' then String.mk acc.reverse :: splitLinesAux cs []
      else splitLinesAux cs (c :: acc)

/-- Python `s.splitlines()` restricted to `'\n'` separators. -/
def splitLines (s : String) : List String := splitLinesAux s.data []

/-- The string contains no newline character. -/
@[reducible] def nlFree (s : String) : Prop := ∀ c ∈ s.data, c ≠ '\n'

/-! ## Segment assembler (`format_segments`) -/

/-- `w.get("start", -1)` — the word's raw start with the `-1` default used in
the containment test. -/
def wordStart (w : Word) : Int := w.start.getD (-1)

/-- The containment test `seg["start"] <= w.get("start", -1) < seg["end"]`.
Python chained comparison: `seg["start"]` is always read (KeyError when
absent); `seg["end"]` is read only when the first comparison holds. -/
def turnTest (t : Turn) (w : Word) : Except String Bool :=
  match t.start with
  | none => Except.error "KeyError: start"
  | some s =>
      if s ≤ wordStart w then
        match t.stop with
        | none => Except.error "KeyError: end"
        | some e => Except.ok (decide (wordStart w < e))
      else Except.ok false

/-- The word filter of the generator expression, word by word in order; the
first word whose test raises aborts the whole comprehension. -/
def collectWords (t : Turn) : List Word → Except String (List Word)
  | [] => Except.ok []
  | w :: ws => do
      let b ← turnTest t w
      let rest ← collectWords t ws
      Except.ok (if b then w :: rest else rest)

/-- The body of the `for seg in labels.get("segments", [])` loop: one
`Segment` per turn, defaults `0` for the emitted timestamps, texts of the
matching words joined with single spaces. -/
def processTurn (ws : List Word) (t : Turn) : Except String Segment := do
  let matched ← collectWords t ws
  Except.ok
    { speaker := t.speaker_label
      start := ((t.start.getD 0 : Int) : ℚ) / 1000
      stop := ((t.stop.getD 0 : Int) : ℚ) / 1000
      text := pyJoin " " (matched.map Word.text) }

/-- Comparison used to embed Python's stable `sorted(segments, key=lambda x:
x["start"])`: a stable sort by key is the sort of the index-tagged list by
the lexicographic order (key, original position). -/
def segLE (a b : Nat × Segment) : Bool :=
  decide (a.2.start < b.2.start ∨ (a.2.start = b.2.start ∧ a.1 ≤ b.1))

/-- `sorted(segments, key=lambda x: x["start"])` — Python's sort is stable,
i.e. it orders the index-tagged entries lexicographically by (key, index). -/
def pySortByStart (l : List Segment) : List Segment :=
  (l.enum.mergeSort segLE).map Prod.snd

/-- The fallback branch: one segment spanning the recording, placeholder
speaker, flat transcript text, end = `audio_duration` (already seconds). -/
def fallbackSegments (r : RawResult) : List Segment :=
  [{ speaker := some "Speaker_0"
     start := 0
     stop := ((r.audio_duration.getD 0 : Int) : ℚ)
     text := r.text.getD "" }]

/-- `format_segments(assembly_json)` — the diarized path runs iff
`speaker_labels` is a truthy dict (a nonempty JSON object); any other value
(absent, non-dict, or the empty dict, which is falsy) takes the fallback.
The diarized path can raise `KeyError` (see `turnTest`), hence `Except`. -/
def format_segments (r : RawResult) : Except String (List Segment) :=
  match r.speaker_labels with
  | some (SpeakerLabels.dict segs other) =>
      if segs.isSome || other then do
        let ws := r.words.getD []
        let pre ← (segs.getD []).mapM (processTurn ws)
        Except.ok (pySortByStart pre)
      else Except.ok (fallbackSegments r)
  | _ => Except.ok (fallbackSegments r)

/-! ## Polling loop (`poll_transcription`) -/

/-- The JSON body of one successful poll response; `status` is read with
`.get("status")`, the rest of the body is opaque (`payload`). -/
structure PollJson where
  status : Option String
  payload : Nat
deriving DecidableEq

/-- One network interaction of the polling loop: `transient` is a request
that times out or returns an error status (on which `raise_for_status`
raises), `ok` is a 2xx response with a JSON body. -/
inductive PollResponse where
  | transient : PollResponse
  | ok : PollJson → PollResponse
deriving DecidableEq

/-- Outcome of running the polling loop against a finite response script. -/
inductive PollOutcome where
  | terminal : PollJson → PollOutcome
  | transportError : PollOutcome
  | stillPolling : PollOutcome
deriving DecidableEq

/-- `status in ("completed", "error")`. -/
def terminalStatus (j : PollJson) : Bool :=
  decide (j.status = some "completed" ∨ j.status = some "error")

/-- The `while True` loop of `poll_transcription`, one script entry per
request.  `resp.raise_for_status()` has no surrounding `try`, so a transient
failure propagates immediately; a non-terminal status just sleeps and polls
again; an exhausted script means the loop is still running. -/
def poll_transcription : List PollResponse → PollOutcome
  | [] => PollOutcome.stillPolling
  | PollResponse.transient :: _ => PollOutcome.transportError
  | PollResponse.ok j :: rest =>
      if terminalStatus j then PollOutcome.terminal j
      else poll_transcription rest

/-! ## Width measurement and word wrap (`wrap_text`) -/

/-- The rendered width of a string for a per-character width function: the
sum of the character widths, which is how `stringWidth` behaves for a simple
(non-kerned) font; the font and size arguments are folded into `cw`. -/
def strWidth (cw : Char → ℚ) (s : String) : ℚ := (s.data.map cw).sum

/-- The wrap loop: `current` is the line being accumulated, a word is added
while the tentative line still fits, otherwise the current line is emitted
(when nonempty) and the word starts a new line; the last line is emitted at
the end when nonempty. -/
def wrapAux (cw : Char → ℚ) (maxW : ℚ) (current : String) :
    List String → List String
  | [] => if current = "" then [] else [current]
  | w :: ws =>
      let test := if current = "" then w else current ++ " " ++ w
      if strWidth cw test ≤ maxW then wrapAux cw maxW test ws
      else if current = "" then wrapAux cw maxW w ws
      else current :: wrapAux cw maxW w ws

/-- `wrap_text(text, font, size, max_width)` with the measurement function
abstracted as `cw`. -/
def wrap_text (cw : Char → ℚ) (maxW : ℚ) (text : String) : List String :=
  wrapAux cw maxW "" (pySplitWs text)

/-! ## PDF layout loop in `main` -/

/-- Page width of US letter, in points. -/
def pageWidth : ℚ := 612

/-- Page height of US letter, in points. -/
def pageHeight : ℚ := 792

/-- `margin = 72`. -/
def margin : ℚ := 72

/-- `max_width = width - 2 * margin`. -/
def maxContentWidth : ℚ := pageWidth - 2 * margin

/-- `font_size = 10`. -/
def fontSize : ℚ := 10

/-- The per-line vertical step `font_size + 2`. -/
def lineStep : ℚ := fontSize + 2

/-- The y cursor right after `y = height - margin` (top of a fresh page). -/
def topY : ℚ := pageHeight - margin

/-- The `y -= 24` reserved for the title line on the first page. -/
def titleGap : ℚ := 24

/-- The y cursor when body content starts on the first page. -/
def firstY : ℚ := topY - titleGap

/-- Where one body line was drawn: 0-based page index and y coordinate. -/
structure DrawPos where
  page : Nat
  y : ℚ
deriving DecidableEq

/-- The drawing loop: before drawing each line, `if y < margin` starts a new
page and resets `y = height - margin`; the line is drawn at the current `y`,
then `y -= font_size + 2`. -/
def paginateAux : Nat → ℚ → List String → List DrawPos
  | _, _, [] => []
  | p, y, _ :: rest =>
      if y < margin then
        DrawPos.mk (p + 1) topY :: paginateAux (p + 1) (topY - lineStep) rest
      else
        DrawPos.mk p y :: paginateAux p (y - lineStep) rest

/-- Draw positions of all body lines, starting below the title on page 0. -/
def paginate (lines : List String) : List DrawPos :=
  paginateAux 0 firstY lines

/-- Zero-padded two-digit rendering of minutes/seconds. -/
def twoDigits (n : Nat) : String :=
  if n < 10 then "0" ++ toString n else toString n

/-- `H:MM:SS` for a second count below one day. -/
def hmsCore (n : Nat) : String :=
  toString (n / 3600) ++ ":" ++ twoDigits (n % 3600 / 60) ++ ":" ++
    twoDigits (n % 60)

/-- `str(timedelta(seconds=t))`: normalize to days plus a remainder in
`[0, 86400)`; the day count is printed only when nonzero, singular iff it is
exactly 1. -/
def formatTimedelta (t : Int) : String :=
  let days : Int := t.fdiv 86400
  let rem : Nat := (t - 86400 * days).toNat
  if days = 0 then hmsCore rem
  else
    toString days ++ (if days = 1 then " day, " else " days, ") ++ hmsCore rem

/-- Python `int()` on an exact rational: truncation toward zero. -/
def truncQ (q : ℚ) : Int := (q.num).tdiv (q.den : Int)

/-- Rendering of an optional value under a Python f-string (`None` prints as
`"None"`). -/
def optStr (o : Option String) : String :=
  match o with
  | none => "None"
  | some s => s

/-- The PDF header `f"{seg['speaker']} [{st} → {et}]:"` where `st`/`et` are
`str(timedelta(seconds=int(…)))`. -/
def segHeader (seg : Segment) : String :=
  optStr seg.speaker ++ " [" ++ formatTimedelta (truncQ seg.start) ++ " → " ++
    formatTimedelta (truncQ seg.stop) ++ "]:"

/-- All wrapped body lines of the PDF, in drawing order: per segment,
`wrap_text(header + " " + text, font, size, max_width)`. -/
def pdfLines (cw : Char → ℚ) (segs : List Segment) : List String :=
  segs.flatMap (fun seg => wrap_text cw maxContentWidth (segHeader seg ++ " " ++ seg.text))

/-- The ambient state of one program run that the code could in principle
observe but the PDF path never reads: a wall clock and an OS randomness
seed. -/
structure Env where
  wallClock : Nat
  randomSeed : Nat
deriving DecidableEq

/-- One run of the PDF layout path under an ambient environment: the wrapped
body lines and the position every one of them is drawn at.  The source reads
neither the clock nor any randomness, so `env` does not occur on the right
hand side. -/
def pdfLayoutRun (env : Env) (cw : Char → ℚ) (segs : List Segment) :
    List String × List DrawPos :=
  (pdfLines cw segs, paginate (pdfLines cw segs))

/-! ## Flat text rendering in `main` -/

/-- Round-half-to-even of an exact rational to an integer, the rounding of
Python's fixed-point formatting. -/
def roundHalfEven (q : ℚ) : Int :=
  let f := ⌊q⌋
  let r := q - (f : ℚ)
  if r < 1 / 2 then f
  else if 1 / 2 < r then f + 1
  else if f % 2 = 0 then f else f + 1

/-- Digits of a one-decimal fixed-point number given as tenths. -/
def tenthsStr (n : Nat) : String :=
  toString (n / 10) ++ "." ++ toString (n % 10)

/-- Python `f"{q:.1f}"` on an exact rational. -/
def format1f (q : ℚ) : String :=
  let t := roundHalfEven (q * 10)
  if t < 0 then "-" ++ tenthsStr (-t).toNat else tenthsStr t.toNat

/-- One flat-output line,
`f"{seg['speaker']} [{seg['start']:.1f}s→{seg['end']:.1f}s]: {seg['text']}"`. -/
def flatLine (seg : Segment) : String :=
  optStr seg.speaker ++ " [" ++ format1f seg.start ++ "s→" ++
    format1f seg.stop ++ "s]: " ++ seg.text

/-- The joined flat text `"\n".join(lines)`. -/
def flatText (segs : List Segment) : String :=
  pyJoin "\n" (segs.map flatLine)

/-! ## Helper lemmas: the word filter of the diarized path -/

/-- The containment predicate once both turn keys are present:
start-inclusive, end-exclusive. -/
def inTurn (s e : Int) (w : Word) : Bool :=
  decide (s ≤ wordStart w ∧ wordStart w < e)

/-- With both keys present the word filter never raises and is a plain
`List.filter` by the half-open-interval predicate. -/
lemma collectWords_keys (t : Turn) (s e : Int) (hs : t.start = some s)
    (he : t.stop = some e) (ws : List Word) :
    collectWords t ws = Except.ok (ws.filter (inTurn s e)) := by
  induction ws with
  | nil => rfl
  | cons w ws ih =>
      simp only [collectWords, turnTest, hs, he, ih, List.filter_cons, inTurn]
      by_cases h1 : s ≤ wordStart w
      · by_cases h2 : wordStart w < e
        · simp [h1, h2, Bind.bind, Except.bind]
        · simp [h1, h2, Bind.bind, Except.bind]
      · simp [h1, Bind.bind, Except.bind]

/-! ## Claim C2: polling under transient failure -/

/-- C2 counterexample.  The claim says a transiently failing poll is retried
up to a bounded count before the operation fails; here a single transient
failure immediately followed by a completed response nevertheless ends the
whole operation with the transport error — no retry ever happens. -/
theorem claim2_counterexample :
    poll_transcription [PollResponse.transient,
        PollResponse.ok { status := some "completed", payload := 0 }] =
      PollOutcome.transportError ∧
    poll_transcription [PollResponse.transient,
        PollResponse.ok { status := some "completed", payload := 0 }] ≠
      PollOutcome.terminal { status := some "completed", payload := 0 } := by
  constructor
  · rfl
  · decide

/-- C2 amended: a poll that fails transiently (timeout or 5xx) is never
retried — after any number of non-terminal successful polls, the first
transient failure fails the whole operation with the transport error. -/
theorem claim2 (pre rest : List PollResponse)
    (hpre : ∀ r ∈ pre, ∃ j, r = PollResponse.ok j ∧ terminalStatus j = false) :
    poll_transcription (pre ++ PollResponse.transient :: rest) =
      PollOutcome.transportError := by
  induction pre with
  | nil => rfl
  | cons a as ih =>
      obtain ⟨j, rfl, hj⟩ := hpre a (by simp)
      rw [List.cons_append]
      simp only [poll_transcription, hj, Bool.false_eq_true, if_false]
      exact ih (fun r hr => hpre r (by simp [hr]))

/-- C2 witness: two pending polls, then a transient failure. -/
theorem claim2_witness :
    poll_transcription
        ([PollResponse.ok { status := some "queued", payload := 0 },
          PollResponse.ok { status := some "processing", payload := 1 }] ++
          PollResponse.transient ::
            [PollResponse.ok { status := some "completed", payload := 2 }]) =
      PollOutcome.transportError := by
  apply claim2
  intro r hr
  simp only [List.mem_cons, List.not_mem_nil, or_false] at hr
  rcases hr with rfl | rfl
  · exact ⟨_, rfl, by decide⟩
  · exact ⟨_, rfl, by decide⟩

/-! ## Claim C3: half-open interval membership -/

/-- C3: for a turn carrying both raw timestamps, the filter succeeds and a
word is collected iff its start lies in the half-open interval
`[turn.start, turn.end)`; in particular a word starting exactly at
`turn.end` is never collected by that turn (instantiating the same statement
at a turn whose start equals that value collects it). -/
theorem claim3 (t : Turn) (s e : Int) (hs : t.start = some s)
    (he : t.stop = some e) (ws : List Word) :
    ∃ l, collectWords t ws = Except.ok l ∧
      (∀ w : Word, w ∈ l ↔ w ∈ ws ∧ s ≤ wordStart w ∧ wordStart w < e) ∧
      (∀ w ∈ ws, wordStart w = e → w ∉ l) := by
  refine ⟨ws.filter (inTurn s e), collectWords_keys t s e hs he ws, ?_, ?_⟩
  · intro w
    simp [List.mem_filter, inTurn, and_assoc]
  · intro w _ hw hmem
    rw [List.mem_filter] at hmem
    have := hmem.2
    simp only [inTurn, decide_eq_true_eq] at this
    omega

/-- C3 witness: the spec's own scenario, turn A = [0, 2000) against the
words "hi"@0 and "bye"@2500 — "hi" is collected, "bye" is not. -/
theorem claim3_witness :
    ∃ l, collectWords { speaker_label := some "A", start := some 0, stop := some 2000 }
        [{ text := "hi", start := some 0 }, { text := "bye", start := some 2500 }] =
          Except.ok l ∧
      (∀ w : Word, w ∈ l ↔
        w ∈ [({ text := "hi", start := some 0 } : Word),
             { text := "bye", start := some 2500 }] ∧
          0 ≤ wordStart w ∧ wordStart w < 2000) ∧
      (∀ w ∈ [({ text := "hi", start := some 0 } : Word),
              { text := "bye", start := some 2500 }],
        wordStart w = 2000 → w ∉ l) :=
  claim3 _ 0 2000 rfl rfl _

/-! ## Claim C10: words lacking a start time -/

/-- C10: for a turn whose raw start is present and non-negative, a word
whose mapping lacks a start time is never collected: its start defaults to
`-1`, which fails the start-inclusive bound.  Every collected word carries a
start key. -/
theorem claim10 (t : Turn) (s : Int) (hs : t.start = some s) (h0 : 0 ≤ s)
    (ws l : List Word) (hl : collectWords t ws = Except.ok l) :
    ∀ w ∈ l, w.start ≠ none := by
  induction ws generalizing l with
  | nil =>
      simp only [collectWords] at hl
      cases hl
      intro w hw
      cases hw
  | cons w ws ih =>
      simp only [collectWords, turnTest, hs] at hl
      by_cases h1 : s ≤ wordStart w
      · rw [if_pos h1] at hl
        cases hstop : t.stop with
        | none => rw [hstop] at hl; cases hl
        | some e =>
            rw [hstop] at hl
            simp only [Bind.bind, Except.bind] at hl
            cases hrec : collectWords t ws with
            | error msg => rw [hrec] at hl; cases hl
            | ok rest =>
                rw [hrec] at hl
                simp only [Except.ok.injEq] at hl
                intro w' hw'
                rw [← hl] at hw'
                by_cases h2 : wordStart w < e
                · rw [if_pos (by simpa using h2)] at hw'
                  rcases List.mem_cons.mp hw' with rfl | hmem
                  · intro hnone
                    simp [wordStart, hnone] at h1
                    omega
                  · exact ih rest hrec w' hmem
                · rw [if_neg (by simpa using h2)] at hw'
                  exact ih rest hrec w' hw'
      · rw [if_neg h1] at hl
        simp only [Bind.bind, Except.bind] at hl
        cases hrec : collectWords t ws with
        | error msg => rw [hrec] at hl; cases hl
        | ok rest =>
            rw [hrec] at hl
            simp only [Except.ok.injEq, if_neg] at hl
            intro w' hw'
            rw [← hl] at hw'
            simp only [Bool.false_eq_true, if_false] at hw'
            exact ih rest hrec w' hw'

/-- C10 witness: against words "hi"@5 and a startless "bye", only "hi" is
collected, and the theorem applied to it shows it carries a start key. -/
theorem claim10_witness :
    ({ text := "hi", start := some 5 } : Word).start ≠ none :=
  claim10 { speaker_label := some "A", start := some 0, stop := some 1000 } 0
    rfl (by decide)
    [{ text := "hi", start := some 5 }, { text := "bye", start := none }]
    [{ text := "hi", start := some 5 }] rfl
    { text := "hi", start := some 5 } (by decide)

/-! ## Claim C9: turns lacking raw timestamp keys -/

/-- C9 counterexample.  The claim says a turn lacking `"start"`/`"end"` makes
assembly fail with an error; but the lookups sit inside the word generator,
so with an empty word list they never run: a diarized result whose single
turn has neither key assembles successfully, emitting the 0 defaults. -/
theorem claim9_counterexample :
    format_segments
        { speaker_labels := some (SpeakerLabels.dict
            (some [{ speaker_label := some "A", start := none, stop := none }]) false),
          words := none, text := none, audio_duration := none } =
      Except.ok [{ speaker := some "A", start := 0, stop := 0, text := "" }] := by
  simp [format_segments, processTurn, collectWords, pySortByStart, pyJoin,
    List.enum_cons, List.enumFrom_nil, List.mergeSort_singleton, List.mapM.loop,
    Bind.bind, Except.bind, pure, Except.pure]

/-- C9 amended: on the diarized path the raw timestamp lookups happen only
inside the word filter, lazily.  A turn lacking `"start"` fails exactly when
at least one word is present; a turn lacking only `"end"` fails exactly when
some word's (defaulted) start reaches the turn's start, the chained
comparison short-circuiting otherwise; with no word the lookups never run
and the segment is emitted with the `.get(…, 0)` defaults, which are used
only for the emitted timestamps. -/
theorem claim9 :
    (∀ (t : Turn) (w : Word) (ws : List Word), t.start = none →
        ∃ msg, collectWords t (w :: ws) = Except.error msg) ∧
    (∀ (t : Turn) (s : Int) (ws : List Word), t.start = some s → t.stop = none →
        (∃ w ∈ ws, s ≤ wordStart w) →
        ∃ msg, collectWords t ws = Except.error msg) ∧
    (∀ (t : Turn) (s : Int) (ws : List Word), t.start = some s → t.stop = none →
        (∀ w ∈ ws, wordStart w < s) → collectWords t ws = Except.ok []) ∧
    (∀ t : Turn, processTurn [] t = Except.ok
        { speaker := t.speaker_label,
          start := ((t.start.getD 0 : Int) : ℚ) / 1000,
          stop := ((t.stop.getD 0 : Int) : ℚ) / 1000, text := "" }) ∧
    (∀ (r : RawResult) (t : Turn) (other : Bool) (w : Word) (ws : List Word),
        r.speaker_labels = some (SpeakerLabels.dict (some [t]) other) →
        r.words = some (w :: ws) → t.start = none →
        ∃ msg, format_segments r = Except.error msg) := by
  have part1 : ∀ (t : Turn) (w : Word) (ws : List Word), t.start = none →
      ∃ msg, collectWords t (w :: ws) = Except.error msg := by
    intro t w ws h
    refine ⟨"KeyError: start", ?_⟩
    simp [collectWords, turnTest, h, Bind.bind, Except.bind]
  refine ⟨part1, ?_, ?_, ?_, ?_⟩
  · intro t s ws hs he hex
    induction ws with
    | nil => simp at hex
    | cons w ws ih =>
        by_cases h1 : s ≤ wordStart w
        · refine ⟨"KeyError: end", ?_⟩
          simp [collectWords, turnTest, hs, he, h1, Bind.bind, Except.bind]
        · have hex' : ∃ w ∈ ws, s ≤ wordStart w := by
            rcases hex with ⟨w', hw', hle⟩
            rcases List.mem_cons.mp hw' with rfl | hmem
            · exact absurd hle h1
            · exact ⟨w', hmem, hle⟩
          obtain ⟨msg, hmsg⟩ := ih hex'
          refine ⟨msg, ?_⟩
          simp [collectWords, turnTest, hs, h1, hmsg, Bind.bind, Except.bind]
  · intro t s ws hs he hall
    induction ws with
    | nil => rfl
    | cons w ws ih =>
        have h1 : ¬ s ≤ wordStart w := by
          have := hall w (by simp)
          omega
        have hrec := ih (fun w' hw' => hall w' (by simp [hw']))
        simp [collectWords, turnTest, hs, h1, hrec, Bind.bind, Except.bind]
  · intro t
    rfl
  · intro r t other w ws hd hw hstart
    obtain ⟨msg, hmsg⟩ := part1 t w ws hstart
    refine ⟨msg, ?_⟩
    simp [format_segments, hd, hw, processTurn, hmsg, List.mapM.loop,
      Bind.bind, Except.bind]

/-- C9 witness: a turn with no `"start"` key against one word raises. -/
theorem claim9_witness :
    ∃ msg, collectWords { speaker_label := some "A", start := none, stop := none }
        [{ text := "hi", start := some 0 }] = Except.error msg :=
  claim9.1 _ { text := "hi", start := some 0 } [] rfl

/-! ## Claim C1: empty diarization turns list -/

/-- C1 counterexample.  `{"segments": []}` is a nonempty dict, hence truthy,
so the fallback branch is not taken; the loop over zero turns emits no
segment at all — not the single fallback segment the claim requires. -/
theorem claim1_counterexample :
    ¬ ∃ seg : Segment,
      format_segments
          { speaker_labels := some (SpeakerLabels.dict (some []) false),
            words := some [{ text := "hi", start := some 0 }],
            text := some "hi there", audio_duration := some 10 } =
        Except.ok [seg] := by
  intro hex
  obtain ⟨seg, h⟩ := hex
  simp [format_segments, pySortByStart, List.enum_nil, List.mergeSort_nil,
    List.mapM.loop, Bind.bind, Except.bind, pure, Except.pure] at h

/-- C1 amended: a raw result whose diarization metadata is an object that
carries an (empty) turns list is truthy, so it takes the diarized path and
assembles the empty segment sequence; the single fallback segment arises
only when the value is absent, not a dict, or the empty dict. -/
theorem claim1 (r : RawResult) (other : Bool) (ws : List Word)
    (hd : r.speaker_labels = some (SpeakerLabels.dict (some []) other))
    (_hw : r.words = some ws) (_hne : ws ≠ []) :
    format_segments r = Except.ok [] := by
  simp [format_segments, hd, pySortByStart, List.enum_nil, List.mergeSort_nil,
    List.mapM.loop, Bind.bind, Except.bind, pure, Except.pure]

/-- C1 witness: empty turns list, one word present, empty output. -/
theorem claim1_witness :
    format_segments
        { speaker_labels := some (SpeakerLabels.dict (some []) true),
          words := some [{ text := "hello", start := some 100 }],
          text := some "hello", audio_duration := some 7 } = Except.ok [] :=
  claim1 _ true [{ text := "hello", start := some 100 }] rfl rfl (by decide)

/-! ## Claim C4: word-wrap width invariant -/

/-- Invariant of the wrap loop: every emitted line either passed the width
check or is a verbatim input word.  `W` is the word list of the whole text;
`current` is empty, already measured, or itself a word. -/
lemma wrapAux_emitted (cw : Char → ℚ) (maxW : ℚ) (W : List String) :
    ∀ (ws : List String) (current : String),
      (current = "" ∨ strWidth cw current ≤ maxW ∨ current ∈ W) →
      (∀ w ∈ ws, w ∈ W) →
      ∀ l ∈ wrapAux cw maxW current ws, strWidth cw l ≤ maxW ∨ l ∈ W := by
  intro ws
  induction ws with
  | nil =>
      intro current hcur _ l hl
      simp only [wrapAux] at hl
      by_cases hc : current = ""
      · rw [if_pos hc] at hl
        cases hl
      · rw [if_neg hc] at hl
        rcases List.mem_singleton.mp hl with rfl
        rcases hcur with h | h | h
        · exact absurd h hc
        · exact Or.inl h
        · exact Or.inr h
  | cons w ws ih =>
      intro current hcur hws l hl
      simp only [wrapAux] at hl
      by_cases hfit : strWidth cw (if current = "" then w
          else current ++ " " ++ w) ≤ maxW
      · rw [if_pos hfit] at hl
        exact ih _ (Or.inr (Or.inl hfit)) (fun x hx => hws x (by simp [hx])) l hl
      · rw [if_neg hfit] at hl
        by_cases hc : current = ""
        · rw [if_pos hc] at hl
          exact ih w (Or.inr (Or.inr (hws w (by simp))))
            (fun x hx => hws x (by simp [hx])) l hl
        · rw [if_neg hc] at hl
          rcases List.mem_cons.mp hl with rfl | hl'
          · rcases hcur with h | h | h
            · exact absurd h hc
            · exact Or.inl h
            · exact Or.inr h
          · exact ih w (Or.inr (Or.inr (hws w (by simp))))
              (fun x hx => hws x (by simp [hx])) l hl'

/-- C4: for every text, width function and positive maximum width, the wrap
never emits a line whose rendered width exceeds the maximum — except that an
emitted line may be a single input word verbatim (never split), which is the
only way an overwide line appears. -/
theorem claim4 (cw : Char → ℚ) (maxW : ℚ) (_hpos : 0 < maxW) (text : String) :
    ∀ l ∈ wrap_text cw maxW text,
      strWidth cw l ≤ maxW ∨ l ∈ pySplitWs text := by
  exact wrapAux_emitted cw maxW (pySplitWs text) (pySplitWs text) ""
    (Or.inl rfl) (fun _ h => h)

/-- C4 witness: zero character widths, maximum width 1, applied to the one
emitted line. -/
theorem claim4_witness :
    strWidth (fun _ => (0 : ℚ)) "a" ≤ 1 ∨ "a" ∈ pySplitWs "a" := by
  have hsplit : pySplitWs "a" = ["a"] := rfl
  have hmem : "a" ∈ wrap_text (fun _ => (0 : ℚ)) 1 "a" := by
    have heval : wrap_text (fun _ => (0 : ℚ)) 1 "a" = ["a"] := by
      unfold wrap_text
      rw [hsplit]
      simp [wrapAux, strWidth]
    rw [heval]
    exact List.mem_singleton.mpr rfl
  exact claim4 (fun _ => (0 : ℚ)) 1 zero_lt_one "a" "a" hmem

/-! ## Claim C5: pagination bounds -/

/-- Invariant of the drawing loop: pages at index 0 never draw above the
post-title cursor, later pages never above the page top, and nothing is
drawn below the bottom margin. -/
lemma paginateAux_bounds :
    ∀ (lines : List String) (p : Nat) (y : ℚ),
      y ≤ (if p = 0 then firstY else topY) →
      ∀ d ∈ paginateAux p y lines,
        margin ≤ d.y ∧ d.y ≤ (if d.page = 0 then firstY else topY) := by
  intro lines
  induction lines with
  | nil => intro p y _ d hd; cases hd
  | cons a rest ih =>
      intro p y hy d hd
      simp only [paginateAux] at hd
      by_cases hbreak : y < margin
      · rw [if_pos hbreak] at hd
        rcases List.mem_cons.mp hd with rfl | hd'
        · refine ⟨by norm_num [margin, topY, pageHeight], ?_⟩
          simp only [Nat.succ_ne_zero, if_false, le_refl]
        · refine ih (p + 1) (topY - lineStep) ?_ d hd'
          simp only [Nat.succ_ne_zero, if_false]
          norm_num [lineStep, fontSize]
      · rw [if_neg hbreak] at hd
        rcases List.mem_cons.mp hd with rfl | hd'
        · exact ⟨not_lt.mp hbreak, hy⟩
        · refine ih p (y - lineStep) ?_ d hd'
          refine le_trans ?_ hy
          norm_num [lineStep, fontSize]

/-- C5: for every segment list and width function, no body line of the PDF
is drawn below the bottom margin; the first page's body starts at the
post-title cursor while every later page's body starts at the page top, so
the first page has strictly less available body height. -/
theorem claim5 (cw : Char → ℚ) (segs : List Segment) :
    (∀ d ∈ paginate (pdfLines cw segs),
        margin ≤ d.y ∧ d.y ≤ (if d.page = 0 then firstY else topY)) ∧
    firstY - margin < topY - margin := by
  constructor
  · intro d hd
    exact paginateAux_bounds (pdfLines cw segs) 0 firstY (by simp) d hd
  · norm_num [firstY, topY, titleGap, margin, pageHeight]

/-- C5 witness: a concrete one-segment run. -/
theorem claim5_witness :
    (∀ d ∈ paginate (pdfLines (fun _ => (1 : ℚ))
        [{ speaker := some "A", start := 0, stop := 1, text := "hi" }]),
      margin ≤ d.y ∧ d.y ≤ (if d.page = 0 then firstY else topY)) ∧
    firstY - margin < topY - margin :=
  claim5 (fun _ => (1 : ℚ))
    [{ speaker := some "A", start := 0, stop := 1, text := "hi" }]

/-! ## Claim C8: layout determinism -/

/-- C8: two runs of the PDF layout path under arbitrary ambient environments
(wall clock, randomness seed) but the same segments and width measurement
produce identical wrapped lines and identical draw positions: the layout
reads nothing but its stated inputs. -/
theorem claim8 (e₁ e₂ : Env) (cw : Char → ℚ) (segs : List Segment) :
    pdfLayoutRun e₁ cw segs = pdfLayoutRun e₂ cw segs := rfl

/-! ## Claim C6: sortedness and stability of the assembler output -/

/-- Totality of the lexicographic (start, original index) comparison. -/
lemma segLE_total (a b : Nat × Segment) : (segLE a b || segLE b a) = true := by
  simp only [segLE, Bool.or_eq_true, decide_eq_true_eq]
  rcases lt_trichotomy a.2.start b.2.start with h | h | h
  · exact Or.inl (Or.inl h)
  · rcases Nat.le_total a.1 b.1 with h' | h'
    · exact Or.inl (Or.inr ⟨h, h'⟩)
    · exact Or.inr (Or.inr ⟨h.symm, h'⟩)
  · exact Or.inr (Or.inl h)

/-- Transitivity of the lexicographic (start, original index) comparison. -/
lemma segLE_trans (a b c : Nat × Segment) :
    segLE a b = true → segLE b c = true → segLE a c = true := by
  simp only [segLE, decide_eq_true_eq]
  rintro (h1 | ⟨h1, h1'⟩) (h2 | ⟨h2, h2'⟩)
  · exact Or.inl (h1.trans h2)
  · exact Or.inl (lt_of_lt_of_le h1 (le_of_eq h2))
  · exact Or.inl (lt_of_le_of_lt (le_of_eq h1) h2)
  · exact Or.inr ⟨h1.trans h2, h1'.trans h2'⟩

/-- The index tags of an enumerated list are strictly increasing. -/
lemma enum_pairwise_fst (l : List Segment) :
    l.enum.Pairwise (fun a b => a.1 < b.1) := by
  have h := List.pairwise_lt_range l.length
  rw [← List.enum_map_fst l] at h
  exact List.pairwise_map.mp h

/-- The embedded stable sort produces a list sorted by start time. -/
lemma pySortByStart_sorted (l : List Segment) :
    (pySortByStart l).Pairwise (fun a b => a.start ≤ b.start) := by
  have hs := List.sorted_mergeSort segLE_trans segLE_total l.enum
  unfold pySortByStart
  rw [List.pairwise_map]
  refine hs.imp ?_
  intro a b hab
  simp only [segLE, decide_eq_true_eq] at hab
  rcases hab with h | ⟨h, _⟩
  · exact le_of_lt h
  · exact le_of_eq h

/-- Stability of the embedded sort, in filter form: for each start value,
the subsequence of segments with that start is unchanged by the sort. -/
lemma pySortByStart_stable (l : List Segment) (q : ℚ) :
    (pySortByStart l).filter (fun x => decide (x.start = q)) =
      l.filter (fun x => decide (x.start = q)) := by
  have hperm :
      ((l.enum.mergeSort segLE).filter
          (fun y : Nat × Segment => decide (y.2.start = q))).Perm
        (l.enum.filter (fun y : Nat × Segment => decide (y.2.start = q))) :=
    (List.mergeSort_perm l.enum segLE).filter _
  have hsort := List.sorted_mergeSort segLE_trans segLE_total l.enum
  have hnodup : ((l.enum.mergeSort segLE).map Prod.fst).Nodup := by
    have henum : (l.enum.map Prod.fst).Nodup := by
      rw [List.enum_map_fst]; exact List.nodup_range _
    exact ((List.mergeSort_perm l.enum segLE).map Prod.fst).symm.nodup henum
  have hne : (l.enum.mergeSort segLE).Pairwise
      (fun a b : Nat × Segment => a.1 ≠ b.1) := List.pairwise_map.mp hnodup
  have hA : ((l.enum.mergeSort segLE).filter
      (fun y : Nat × Segment => decide (y.2.start = q))).Pairwise
        (fun a b : Nat × Segment => a.1 < b.1) := by
    refine List.pairwise_filter.mpr ?_
    refine (hsort.and hne).imp ?_
    rintro a b ⟨hab, hneq⟩ ha hb
    simp only [segLE, decide_eq_true_eq] at hab
    rcases hab with h | ⟨_, hle⟩
    · rw [ha, hb] at h; exact absurd h (lt_irrefl q)
    · exact Nat.lt_of_le_of_ne hle hneq
  have hB : (l.enum.filter
      (fun y : Nat × Segment => decide (y.2.start = q))).Pairwise
        (fun a b : Nat × Segment => a.1 < b.1) :=
    (enum_pairwise_fst l).filter _
  haveI : IsAntisymm (Nat × Segment) (fun a b => a.1 < b.1) :=
    ⟨fun a b h1 h2 => absurd h1 (Nat.lt_asymm h2)⟩
  have hAB := List.eq_of_perm_of_sorted hperm hA hB
  unfold pySortByStart
  rw [List.filter_map]
  conv_rhs => rw [← List.enum_map_snd l, List.filter_map]
  simp only [Function.comp_def]
  rw [hAB]

/-- C6: whenever the diarized path succeeds, the emitted sequence is the
embedded stable sort of the per-turn segments: it is sorted ascending by
start time, and for every start value the segments carrying it appear in
their original turn order (stability as preservation of each equal-start
subsequence). -/
theorem claim6 (r : RawResult) (turns : List Turn) (other : Bool)
    (hd : r.speaker_labels = some (SpeakerLabels.dict (some turns) other))
    (l : List Segment) (hok : format_segments r = Except.ok l) :
    ∃ pre, List.mapM (processTurn (r.words.getD [])) turns = Except.ok pre ∧
      l = pySortByStart pre ∧
      l.Pairwise (fun a b => a.start ≤ b.start) ∧
      ∀ q : ℚ, l.filter (fun x => decide (x.start = q)) =
        pre.filter (fun x => decide (x.start = q)) := by
  simp only [format_segments, hd, Option.isSome_some, Bool.true_or, if_true,
    Option.getD_some] at hok
  cases hpre : List.mapM (processTurn (r.words.getD [])) turns with
  | error msg =>
      rw [hpre] at hok
      simp [Bind.bind, Except.bind] at hok
  | ok pre =>
      rw [hpre] at hok
      simp only [Bind.bind, Except.bind, Except.ok.injEq] at hok
      subst hok
      exact ⟨pre, rfl, rfl, pySortByStart_sorted pre,
        fun q => pySortByStart_stable pre q⟩

/-- C6 witness: a one-turn diarized result. -/
theorem claim6_witness :
    ∃ pre, List.mapM (processTurn [])
        [({ speaker_label := some "B", start := some 0, stop := some 0 } : Turn)] =
          Except.ok pre ∧
      [({ speaker := some "B", start := 0, stop := 0, text := "" } : Segment)] =
        pySortByStart pre ∧
      List.Pairwise (fun a b : Segment => a.start ≤ b.start)
        [({ speaker := some "B", start := 0, stop := 0, text := "" } : Segment)] ∧
      ∀ q : ℚ,
        List.filter (fun x => decide (x.start = q))
          [({ speaker := some "B", start := 0, stop := 0, text := "" } : Segment)] =
        pre.filter (fun x => decide (x.start = q)) :=
  claim6
    { speaker_labels := some (SpeakerLabels.dict
        (some [{ speaker_label := some "B", start := some 0, stop := some 0 }]) false),
      words := none, text := none, audio_duration := none }
    [{ speaker_label := some "B", start := some 0, stop := some 0 }] false rfl
    [{ speaker := some "B", start := 0, stop := 0, text := "" }]
    (by simp [format_segments, processTurn, collectWords, pySortByStart, pyJoin,
      List.enum_cons, List.enumFrom_nil, List.mergeSort_singleton, List.mapM.loop,
      Bind.bind, Except.bind, pure, Except.pure])

/-! ## Claim C7: flat text round-trip -/

/-- Concatenation preserves newline-freeness. -/
lemma nlFree_append (s t : String) (hs : nlFree s) (ht : nlFree t) :
    nlFree (s ++ t) := by
  intro c hc
  rw [String.data_append] at hc
  rcases List.mem_append.mp hc with h | h
  · exact hs c h
  · exact ht c h

/-- No digit character is a newline. -/
lemma digitChar_ne_nl (m : Nat) : Nat.digitChar m ≠ '\n' := by
  rcases Nat.lt_or_ge m 16 with h | h
  · interval_cases m <;> decide
  · obtain ⟨k, rfl⟩ := Nat.exists_eq_add_of_le h
    simp only [Nat.digitChar]
    repeat rw [if_neg (by omega)]
    decide

/-- The characters produced by the core digit printer are never newlines. -/
lemma toDigitsCore_ne_nl (b : Nat) :
    ∀ (fuel n : Nat) (acc : List Char), (∀ c ∈ acc, c ≠ '\n') →
      ∀ c ∈ Nat.toDigitsCore b fuel n acc, c ≠ '\n' := by
  intro fuel
  induction fuel with
  | zero =>
      intro n acc hacc c hc
      rw [Nat.toDigitsCore] at hc
      exact hacc c hc
  | succ fuel ih =>
      intro n acc hacc c hc
      rw [Nat.toDigitsCore] at hc
      by_cases h : n / b = 0
      · rw [if_pos h] at hc
        rcases List.mem_cons.mp hc with rfl | hmem
        · exact digitChar_ne_nl _
        · exact hacc c hmem
      · rw [if_neg h] at hc
        refine ih (n / b) (Nat.digitChar (n % b) :: acc) ?_ c hc
        intro c' hc'
        rcases List.mem_cons.mp hc' with rfl | hmem
        · exact digitChar_ne_nl _
        · exact hacc c' hmem

/-- Decimal renderings of naturals are newline-free. -/
lemma nlFree_natStr (n : Nat) : nlFree (toString n) := by
  intro c hc
  have hdata : (toString n).data = Nat.toDigitsCore 10 (n + 1) n [] := rfl
  rw [hdata] at hc
  exact toDigitsCore_ne_nl 10 (n + 1) n [] (by intro c' hc'; cases hc') c hc

/-- One-decimal fixed-point digit strings are newline-free. -/
lemma nlFree_tenthsStr (n : Nat) : nlFree (tenthsStr n) := by
  unfold tenthsStr
  exact nlFree_append _ _
    (nlFree_append _ _ (nlFree_natStr _) (by decide)) (nlFree_natStr _)

/-- The `.1f` rendering is newline-free. -/
lemma nlFree_format1f (q : ℚ) : nlFree (format1f q) := by
  simp only [format1f]
  split
  · exact nlFree_append _ _ (by decide) (nlFree_tenthsStr _)
  · exact nlFree_tenthsStr _

/-- A flat line whose speaker rendering and text are newline-free is itself
newline-free. -/
lemma flatLine_nlFree (seg : Segment) (hspk : nlFree (optStr seg.speaker))
    (htext : nlFree seg.text) : nlFree (flatLine seg) := by
  unfold flatLine
  have h1 := nlFree_append _ _ hspk (show nlFree " [" by decide)
  have h2 := nlFree_append _ _ h1 (nlFree_format1f seg.start)
  have h3 := nlFree_append _ _ h2 (show nlFree "s→" by decide)
  have h4 := nlFree_append _ _ h3 (nlFree_format1f seg.stop)
  have h5 := nlFree_append _ _ h4 (show nlFree "s]: " by decide)
  exact nlFree_append _ _ h5 htext

/-- A flat line is never the empty string (it always shows the bracketed
timestamps). -/
lemma flatLine_ne_empty (seg : Segment) : (flatLine seg).data ≠ [] := by
  unfold flatLine
  intro h
  have hlen := congrArg List.length h
  simp only [String.data_append, List.length_append, List.length_nil,
    List.length_cons] at hlen
  omega

/-- Structure eta for strings. -/
lemma mk_data (s : String) : String.mk s.data = s := rfl

/-- Splitting a newline-free nonempty character run yields that single
line. -/
lemma splitLinesAux_noNl (chunk : List Char) :
    ∀ acc : List Char, (∀ c ∈ chunk, c ≠ '\n') → acc.reverse ++ chunk ≠ [] →
      splitLinesAux chunk acc = [String.mk (acc.reverse ++ chunk)] := by
  induction chunk with
  | nil =>
      intro acc _ hne
      simp only [List.append_nil] at hne ⊢
      simp only [splitLinesAux]
      rw [if_neg]
      simp only [List.isEmpty_iff]
      intro hacc
      exact hne (by simp [hacc])
  | cons c cs ih =>
      intro acc hnl hne
      have hc : c ≠ '\n' := hnl c (by simp)
      simp only [splitLinesAux, if_neg hc]
      rw [ih (c :: acc) (fun c' h => hnl c' (by simp [h])) (by simp)]
      congr 1
      simp

/-- Splitting a newline-free run followed by a newline emits the run as one
line and continues after the newline. -/
lemma splitLinesAux_break (chunk : List Char) :
    ∀ (acc rest : List Char), (∀ c ∈ chunk, c ≠ '\n') →
      splitLinesAux (chunk ++ '\n' :: rest) acc =
        String.mk (acc.reverse ++ chunk) :: splitLinesAux rest [] := by
  induction chunk with
  | nil =>
      intro acc rest _
      simp [splitLinesAux]
  | cons c cs ih =>
      intro acc rest hnl
      have hc : c ≠ '\n' := hnl c (by simp)
      simp only [List.cons_append, splitLinesAux, if_neg hc, List.append_eq]
      rw [ih (c :: acc) rest (fun c' h => hnl c' (by simp [h]))]
      congr 2
      simp

/-- Splitting the newline-join of nonempty newline-free lines recovers
exactly those lines. -/
lemma splitLines_pyJoin :
    ∀ lines : List String,
      (∀ l ∈ lines, l.data ≠ [] ∧ ∀ c ∈ l.data, c ≠ '\n') →
      splitLines (pyJoin "\n" lines) = lines := by
  intro lines
  induction lines with
  | nil => intro _; rfl
  | cons x xs ih =>
      intro h
      cases xs with
      | nil =>
          show splitLines x = [x]
          unfold splitLines
          rw [splitLinesAux_noNl x.data [] (h x (by simp)).2
            (by simpa using (h x (by simp)).1)]
          simp [mk_data]
      | cons y ys =>
          show splitLines (x ++ "\n" ++ pyJoin "\n" (y :: ys)) = _
          unfold splitLines
          have hdata : (x ++ "\n" ++ pyJoin "\n" (y :: ys)).data =
              x.data ++ '\n' :: (pyJoin "\n" (y :: ys)).data := by
            simp [String.data_append]
          rw [hdata,
            splitLinesAux_break x.data [] (pyJoin "\n" (y :: ys)).data
              (h x (by simp)).2]
          have htail : splitLinesAux (pyJoin "\n" (y :: ys)).data [] =
              splitLines (pyJoin "\n" (y :: ys)) := rfl
          rw [htail, ih (fun l hl => h l (by simp [hl]))]
          simp [mk_data]

/-- C7 amended: for segments whose rendered speaker label and text contain
no newline, the flat output splits into exactly one line per segment, in
order; each line starts with the segment's speaker rendering and ends with
its text (so both occur as substrings). -/
theorem claim7 (segs : List Segment)
    (hclean : ∀ seg ∈ segs, nlFree (optStr seg.speaker) ∧ nlFree seg.text) :
    splitLines (flatText segs) = segs.map flatLine ∧
    (segs.map flatLine).length = segs.length ∧
    (∀ seg ∈ segs, (∃ u, flatLine seg = optStr seg.speaker ++ u) ∧
      (∃ v, flatLine seg = v ++ seg.text)) := by
  refine ⟨?_, by simp, ?_⟩
  · unfold flatText
    rw [splitLines_pyJoin (segs.map flatLine) ?_]
    intro l hl
    rcases List.mem_map.mp hl with ⟨seg, hseg, rfl⟩
    exact ⟨flatLine_ne_empty seg,
      flatLine_nlFree seg (hclean seg hseg).1 (hclean seg hseg).2⟩
  · intro seg _
    constructor
    · refine ⟨" [" ++ format1f seg.start ++ "s→" ++ format1f seg.stop ++
        "s]: " ++ seg.text, ?_⟩
      simp [flatLine, String.append_assoc]
    · exact ⟨optStr seg.speaker ++ " [" ++ format1f seg.start ++ "s→" ++
        format1f seg.stop ++ "s]: ", rfl⟩

/-- C7 counterexample.  A segment whose text itself contains a newline
produces two newline-separated lines in the flat output, not one — and its
second line no longer contains the segment's text. -/
theorem claim7_counterexample :
    (splitLines (flatText
        [{ speaker := some "A", start := 0, stop := 0, text := "a\nb" }])).length
      = 2 := by
  have h1 : roundHalfEven ((0 : ℚ) * 10) = 0 := by
    norm_num [roundHalfEven]
  have h0 : format1f (0 : ℚ) = "0.0" := by
    simp only [format1f, h1]
    rfl
  simp only [flatText, List.map_cons, List.map_nil, pyJoin, flatLine, optStr, h0]
  rfl

/-- C7 witness: one newline-free segment, one output line. -/
theorem claim7_witness :
    splitLines (flatText
        [{ speaker := some "A", start := 0, stop := 0, text := "hello" }]) =
      List.map flatLine
        [{ speaker := some "A", start := 0, stop := 0, text := "hello" }] ∧
    (List.map flatLine
        [({ speaker := some "A", start := 0, stop := 0, text := "hello" } :
          Segment)]).length = 1 ∧
    (∀ seg ∈ [({ speaker := some "A", start := 0, stop := 0, text := "hello" } :
          Segment)],
      (∃ u, flatLine seg = optStr seg.speaker ++ u) ∧
      (∃ v, flatLine seg = v ++ seg.text)) :=
  claim7 [{ speaker := some "A", start := 0, stop := 0, text := "hello" }]
    (by
      intro seg hseg
      simp only [List.mem_singleton] at hseg
      subst hseg
      exact ⟨by decide, by decide⟩)
